import Mathlib

attribute [local semireducible] Rat.mul Rat.inv Rat.add Rat.sub

deriving instance DecidableEq for Except

/-!
Shallow embedding of the CAN bit-timing calculator.

The repository contains two implementations of the core search:
* the package module (src/can_bit_timing_calculator/can_bit_timing_calculator.py),
  whose search is the function calculate_bit_timings and whose query layer lives
  on the CanDevice dataclass, and
* a legacy top-level module (src/can_bit_timing_calculator.py), whose search is
  the function calculateBitTimings.

Python floats are modelled as exact rationals (all arithmetic the claims touch
is division/comparison of machine-representable values), Python ints as Int,
Python lists as List, the TimingInfos dict as an association list, and Python
exceptions as an Except error value:
* AssertionError from the sample-point assert is invalidArgument,
* KeyError from the missing-phase dict lookup is unsupportedPhase,
* ZeroDivisionError from division by a zero clock or zero rate-times-quanta
  is zeroDivision,
* IndexError from the [-1] subscript on an empty SyncJumpWidth_range is
  indexError.
Iteration order of the two nested range loops is the order of segmentPairs;
Python raises at the first failing iteration, which exceptMapList mirrors.
The built-in list.sort is a stable sort by key, modelled by insertion sort
over the same key order.  The set used for de-duplication is modelled as
keeping the first occurrence of each key class (Python sets keep the element
already present when an equal one is added).
-/

/-- Python exception kinds reachable from the core, using the names the
specification gives them.  zeroDivision stands for ZeroDivisionError and
indexError for the IndexError raised by SyncJumpWidth_range[-1] on an empty
range. -/
inductive PyError
  | invalidArgument
  | unsupportedPhase
  | zeroDivision
  | indexError
  deriving DecidableEq, Repr

/-- CAN phase enumeration from the source (class CanPhase). -/
inductive CanPhase
  | Arbitration
  | Data
  deriving DecidableEq, Repr

/-- Synchronization segment is 1 time quantum by standard (SyncSegment = 1). -/
def SyncSegment : ℤ := 1

/-- Lower bound of DefaultSamplePointRange = (50, 100). -/
def DefaultSamplePointLo : ℚ := 50

/-- Upper bound of DefaultSamplePointRange = (50, 100). -/
def DefaultSamplePointHi : ℚ := 100

/-- Minimal sample point of the legacy module (MinimalSamplePoint = 70). -/
def MinimalSamplePoint : ℚ := 70

/-- Calculated bit timing parameters (dataclass BitTiming). -/
structure BitTiming where
  SamplePoint : ℚ
  TimeQuantumSec : ℚ
  TimeQuantaPerBitTime : ℤ
  TS1 : ℤ
  TS2 : ℤ
  Prescaler : ℤ
  SyncJumpWidthActual : ℤ
  deriving DecidableEq, Repr

/-- Attributes used by the package BitTiming class in its equality and hash
(method named keys in the source): the sample point and the actual SJW. -/
def BitTiming.keys (bt : BitTiming) : ℚ × ℤ := (bt.SamplePoint, bt.SyncJumpWidthActual)

/-- Device timing constraint for one phase (dataclass TimingInfo). -/
structure TimingInfo where
  Phase : CanPhase
  TimeSegment1_range : List ℤ
  TimeSegment2_range : List ℤ
  SyncJumpWidth_range : List ℤ
  PreScaler_range : List ℤ
  deriving DecidableEq, Repr

/-- Device description (dataclass CanDevice of the package module).  The
TimingInfos dict is an association list keyed by phase. -/
structure CanDevice where
  name : String
  comment : String
  F_in : ℤ
  MaxBaudRate : ℤ
  TimingInfos : List (CanPhase × TimingInfo)
  MaxFDBaudRate : ℤ
  setter_offset_ts1 : ℤ
  setter_offset_ts2 : ℤ
  setter_offset_sjw : ℤ
  setter_offset_prescaler : ℤ
  deriving DecidableEq, Repr

/-- Python int() applied to a rational: truncation toward zero. -/
def intTrunc (q : ℚ) : ℤ := q.num.tdiv (q.den : ℤ)

/-- Helper closed_range of the package module: the closed integer interval
as a list. -/
def closed_range (start stop : ℤ) : List ℤ :=
  (List.range (stop + 1 - start).toNat).map fun i => start + (i : ℤ)

/-- Body of the two nested loops of calculate_bit_timings for one
(TS1, TS2) pair.  Returns ok none when the pair is discarded by the
prescaler membership test (Python: prescaler not in PreScaler_range, a
list-membership test, hence an exact-equality test against each integer of
the range) or by the sample-point window test, ok (some bt) when a solution
is emitted, error zeroDivision exactly where Python would raise
ZeroDivisionError (f_in divided by zero rate-times-quanta, or 1/f_in), and
error indexError where Python would raise IndexError (the [-1] subscript on
an empty SyncJumpWidth_range, evaluated only when a solution is emitted). -/
def calcStep (f_in baud_rate_bps : ℚ) (target_sjw : ℤ) (timing_info : TimingInfo)
    (spLo spHi : ℚ) (TS1 TS2 : ℤ) : Except PyError (Option BitTiming) :=
  let time_quanta_per_bit_time : ℤ := SyncSegment + TS1 + TS2
  if baud_rate_bps * (time_quanta_per_bit_time : ℚ) = 0 then .error .zeroDivision else
  let prescalerReal : ℚ := f_in / (baud_rate_bps * (time_quanta_per_bit_time : ℚ))
  if ∃ k ∈ timing_info.PreScaler_range, (k : ℚ) = prescalerReal then
    if f_in = 0 then .error .zeroDivision else
    let prescaler : ℤ := intTrunc prescalerReal
    let time_quantum_sec : ℚ := 1 / f_in * (prescaler : ℚ)
    let sample_point : ℚ := ((SyncSegment + TS1 : ℤ) : ℚ) / ((time_quanta_per_bit_time : ℤ) : ℚ) * 100
    if spLo ≤ sample_point ∧ sample_point ≤ spHi then
      match timing_info.SyncJumpWidth_range.getLast? with
      | none => .error .indexError
      | some last =>
        .ok (some ⟨sample_point, time_quantum_sec, time_quanta_per_bit_time, TS1, TS2, prescaler,
          min target_sjw (min TS1 (min TS2 last))⟩)
    else .ok none
  else .ok none

/-- Cross product of the two segment ranges in loop order: TS1 outer, TS2
inner. -/
def segmentPairs (timing_info : TimingInfo) : List (ℤ × ℤ) :=
  timing_info.TimeSegment1_range.flatMap fun a =>
    timing_info.TimeSegment2_range.map fun b => (a, b)

/-- Sequential effectful map: applies f left to right and stops at the first
error, as the Python loop raises at the first failing iteration. -/
def exceptMapList (f : α → Except ε β) : List α → Except ε (List β)
  | [] => .ok []
  | a :: as =>
    match f a with
    | .error e => .error e
    | .ok b =>
      match exceptMapList f as with
      | .error e => .error e
      | .ok bs => .ok (b :: bs)

/-- Sort order used by the final list.sort of calculate_bit_timings:
ascending sample point first, descending prescaler second (Python key
(x.SamplePoint, -x.Prescaler)). -/
def btLE (a b : BitTiming) : Prop :=
  a.SamplePoint < b.SamplePoint ∨ (a.SamplePoint = b.SamplePoint ∧ b.Prescaler ≤ a.Prescaler)

instance : DecidableRel btLE := fun a b => by
  unfold btLE
  exact inferInstance

/-- The package search calculate_bit_timings: iterate the segment cross
product, collect the emitted solutions, and sort them by btLE. -/
def calculate_bit_timings (f_in baud_rate_bps : ℚ) (target_sjw : ℤ)
    (timing_info : TimingInfo) (spLo spHi : ℚ) : Except PyError (List BitTiming) :=
  (exceptMapList (fun p => calcStep f_in baud_rate_bps target_sjw timing_info spLo spHi p.1 p.2)
      (segmentPairs timing_info)).map fun l => List.insertionSort btLE l.reduceOption

/-- Body of the two nested loops of the legacy calculateBitTimings for one
(TS1, TS2) pair: same as calcStep except that the sample-point filter only
rejects points below MinimalSamplePoint. -/
def calcStepLegacy (F_in baudRateBps : ℚ) (target_sjw : ℤ) (timingInfo : TimingInfo)
    (TS1 TS2 : ℤ) : Except PyError (Option BitTiming) :=
  let TimeQuantaPerBitTime : ℤ := SyncSegment + TS1 + TS2
  if baudRateBps * (TimeQuantaPerBitTime : ℚ) = 0 then .error .zeroDivision else
  let prescalerReal : ℚ := F_in / (baudRateBps * (TimeQuantaPerBitTime : ℚ))
  if ∃ k ∈ timingInfo.PreScaler_range, (k : ℚ) = prescalerReal then
    if F_in = 0 then .error .zeroDivision else
    let prescaler : ℤ := intTrunc prescalerReal
    let TimeQuantumSec : ℚ := 1 / F_in * (prescaler : ℚ)
    let SamplePoint : ℚ := ((SyncSegment + TS1 : ℤ) : ℚ) / ((TimeQuantaPerBitTime : ℤ) : ℚ) * 100
    if SamplePoint < MinimalSamplePoint then .ok none
    else
      match timingInfo.SyncJumpWidth_range.getLast? with
      | none => .error .indexError
      | some last =>
        .ok (some ⟨SamplePoint, TimeQuantumSec, TimeQuantaPerBitTime, TS1, TS2, prescaler,
          min target_sjw (min TS1 (min TS2 last))⟩)
  else .ok none

/-- The legacy search calculateBitTimings: same cross product, fixed lower
sample-point bound of 70, and no sorting of the result. -/
def calculateBitTimings (F_in baudRateBps : ℚ) (target_sjw : ℤ)
    (timingInfo : TimingInfo) : Except PyError (List BitTiming) :=
  (exceptMapList (fun p => calcStepLegacy F_in baudRateBps target_sjw timingInfo p.1 p.2)
      (segmentPairs timingInfo)).map List.reduceOption

/-- Worker for the de-duplication performed by list(set(timings)): keeps the
first timing of each class of the key equality of BitTiming.keys, skipping a
timing whose keys were already seen. -/
def uniqueAux (seen : List (ℚ × ℤ)) : List BitTiming → List BitTiming
  | [] => []
  | t :: ts =>
    if t.keys ∈ seen then uniqueAux seen ts
    else t :: uniqueAux (t.keys :: seen) ts

/-- De-duplication performed by list(set(timings)): one representative per
class of the key equality of BitTiming.keys, keeping the first occurrence. -/
def uniqueTimings (timings : List BitTiming) : List BitTiming :=
  uniqueAux [] timings

/-- Method CanDevice._get_timings: look up the phase in the TimingInfos dict
(KeyError when absent, reported as unsupportedPhase), run the search with the
default sample-point range, and optionally de-duplicate. -/
def CanDevice._get_timings (d : CanDevice) (baud_rate_bps : ℚ) (phase : CanPhase)
    (target_sjw : ℤ) (unique : Bool) : Except PyError (List BitTiming) :=
  match d.TimingInfos.lookup phase with
  | none => .error .unsupportedPhase
  | some timing_info =>
    (calculate_bit_timings (d.F_in : ℚ) baud_rate_bps target_sjw timing_info
        DefaultSamplePointLo DefaultSamplePointHi).map
      fun timings => if unique then uniqueTimings timings else timings

/-- Method CanDevice.get_timings: arbitration-phase timings. -/
def CanDevice.get_timings (d : CanDevice) (baud_rate_bps : ℚ) (target_sjw : ℤ)
    (unique : Bool) : Except PyError (List BitTiming) :=
  d._get_timings baud_rate_bps CanPhase.Arbitration target_sjw unique

/-- Static method CanDevice._get_timing: first timing whose sample point lies
strictly inside the open search window, none when no timing qualifies. -/
def CanDevice._get_timing (timings : List BitTiming) (sampling_point_target : ℚ)
    (search_range_percent : ℚ) : Option BitTiming :=
  timings.find? fun t =>
    decide (sampling_point_target - search_range_percent < t.SamplePoint ∧
      t.SamplePoint < sampling_point_target + search_range_percent)

/-- Method CanDevice.get_timing: assert the target inside the default sample
point range (AssertionError, reported as invalidArgument), then search the
de-duplicated arbitration timings for the first one inside the window. -/
def CanDevice.get_timing (d : CanDevice) (baud_rate_bps : ℚ)
    (sampling_point_target : ℚ) (search_range_percent : ℚ) (target_sjw : ℤ) :
    Except PyError (Option BitTiming) :=
  if DefaultSamplePointLo ≤ sampling_point_target ∧ sampling_point_target ≤ DefaultSamplePointHi then
    (d.get_timings baud_rate_bps target_sjw true).map fun timings =>
      CanDevice._get_timing timings sampling_point_target search_range_percent
  else .error .invalidArgument

/-- Catalog entry XCANPS (Xilinx Zynq CAN periphery). -/
def CANDeviceXCANPS : CanDevice :=
  ⟨"XCANPS", "Xilinx Zynq CAN periphery", 80000000, 1000,
    [(CanPhase.Arbitration,
      ⟨CanPhase.Arbitration, closed_range 1 16, closed_range 1 8,
        closed_range 1 4, closed_range 1 256⟩)],
    0, -1, -1, -1, -1⟩

/-- Catalog entry SJA1000 (SJA1000 compatible Opencores IP). -/
def CANDeviceSJA1000 : CanDevice :=
  ⟨"SJA1000", "SJA1000 compatible Opencores IP", 24000000, 1000,
    [(CanPhase.Arbitration,
      ⟨CanPhase.Arbitration, closed_range 1 16, closed_range 1 8,
        closed_range 1 4, closed_range 1 64⟩)],
    0, -1, -1, -1, -1⟩

/-- Catalog entry XCANFD (Xilinx CANFD IP). -/
def CANDeviceXCANFD : CanDevice :=
  ⟨"XCANFD", "Xilinx CANFD IP", 36000000, 1000,
    [(CanPhase.Arbitration,
      ⟨CanPhase.Arbitration, closed_range 1 256, closed_range 1 128,
        closed_range 1 128, closed_range 1 256⟩),
     (CanPhase.Data,
      ⟨CanPhase.Data, closed_range 1 32, closed_range 1 16,
        closed_range 1 16, closed_range 1 256⟩)],
    2000, -1, -1, -1, -1⟩

/-- Device catalog list CanDeviceList of the package module. -/
def CanDeviceList : List CanDevice :=
  [CANDeviceSJA1000, CANDeviceXCANFD, CANDeviceXCANPS]

/-- Small constraint with a fractional real prescaler 11/3 inside the bounds
of its prescaler range. -/
def tiFrac : TimingInfo :=
  ⟨CanPhase.Arbitration, [1], [1], [1], closed_range 1 10⟩

/-- Small constraint admitting exactly the worked-example solution. -/
def tiWorked : TimingInfo :=
  ⟨CanPhase.Arbitration, [15], [4], closed_range 1 4, [8]⟩

/-- The worked-example solution. -/
def btWorked : BitTiming := ⟨80, 1 / 10000000, 20, 15, 4, 8, 3⟩

/-- Small constraint whose only solution has sample point 200/3, below the
legacy minimal sample point of 70. -/
def tiLow : TimingInfo :=
  ⟨CanPhase.Arbitration, [1], [1], [1], closed_range 1 8⟩

/-- Small device wrapping tiWorked for the query-layer examples. -/
def devWorked : CanDevice :=
  ⟨"small", "example device", 80000000, 1000,
    [(CanPhase.Arbitration, tiWorked)], 0, 0, 0, 0, 0⟩

/-- A timing with sample point 70. -/
def bt70 : BitTiming := ⟨70, 1 / 5000000, 10, 6, 3, 16, 3⟩

/-- A timing with sample point 80. -/
def bt80 : BitTiming := ⟨80, 1 / 5000000, 10, 7, 2, 16, 2⟩

/-- Two timings that agree on the de-duplication keys (sample point 80 and
actual SJW 3) although segment1, segment2 and prescaler all differ. -/
def btKeyTwin : BitTiming := ⟨80, 1 / 8000000, 16, 12, 3, 10, 3⟩

/-! Helper lemmas about the loop combinators. -/

/-- An ok run of exceptMapList relates inputs and outputs pointwise. -/
theorem exceptMapList_ok_forall2 {α β ε : Type} {f : α → Except ε β} :
    ∀ {l : List α} {bs : List β}, exceptMapList f l = .ok bs →
      List.Forall₂ (fun a b => f a = .ok b) l bs := by
  intro l
  induction l with
  | nil =>
    intro bs h
    simp only [exceptMapList] at h
    cases h
    exact List.Forall₂.nil
  | cons a as ih =>
    intro bs h
    simp only [exceptMapList] at h
    cases hfa : f a with
    | error e => rw [hfa] at h; cases h
    | ok b =>
      rw [hfa] at h
      cases hrest : exceptMapList f as with
      | error e => rw [hrest] at h; cases h
      | ok bs2 =>
        rw [hrest] at h
        cases h
        exact List.Forall₂.cons hfa (ih hrest)

/-- A right member of a Forall₂ relation has a related left member. -/
theorem forall2_mem_right {α β : Type} {R : α → β → Prop} {l : List α} {m : List β}
    (h : List.Forall₂ R l m) : ∀ b ∈ m, ∃ a ∈ l, R a b := by
  induction h with
  | nil => intro b hb; cases hb
  | cons hR _ ih =>
    intro b hb
    rcases List.mem_cons.mp hb with rfl | hb
    · exact ⟨_, List.mem_cons_self _ _, hR⟩
    · obtain ⟨a, ha, hab⟩ := ih b hb
      exact ⟨a, List.mem_cons_of_mem _ ha, hab⟩

/-- A left member of a Forall₂ relation has a related right member. -/
theorem forall2_mem_left {α β : Type} {R : α → β → Prop} {l : List α} {m : List β}
    (h : List.Forall₂ R l m) : ∀ a ∈ l, ∃ b ∈ m, R a b := by
  induction h with
  | nil => intro a ha; cases ha
  | cons hR _ ih =>
    intro a ha
    rcases List.mem_cons.mp ha with rfl | ha
    · exact ⟨_, List.mem_cons_self _ _, hR⟩
    · obtain ⟨b, hb, hab⟩ := ih a ha
      exact ⟨b, List.mem_cons_of_mem _ hb, hab⟩

/-- An error run of exceptMapList comes from an erroring element. -/
theorem exceptMapList_error {α β ε : Type} {f : α → Except ε β} :
    ∀ {l : List α} {e : ε}, exceptMapList f l = .error e → ∃ a ∈ l, f a = .error e := by
  intro l
  induction l with
  | nil => intro e h; simp only [exceptMapList] at h; cases h
  | cons a as ih =>
    intro e h
    simp only [exceptMapList] at h
    cases hfa : f a with
    | error e2 =>
      rw [hfa] at h
      cases h
      exact ⟨a, List.mem_cons_self _ _, hfa⟩
    | ok b =>
      rw [hfa] at h
      cases hrest : exceptMapList f as with
      | error e2 =>
        rw [hrest] at h
        cases h
        obtain ⟨x, hx, hfx⟩ := ih hrest
        exact ⟨x, List.mem_cons_of_mem _ hx, hfx⟩
      | ok bs2 => rw [hrest] at h; cases h

/-- exceptMapList only looks at f on members of the list. -/
theorem exceptMapList_congr {α β ε : Type} {f g : α → Except ε β} :
    ∀ {l : List α}, (∀ a ∈ l, f a = g a) → exceptMapList f l = exceptMapList g l := by
  intro l
  induction l with
  | nil => intro _; rfl
  | cons a as ih =>
    intro h
    simp only [exceptMapList]
    rw [h a (List.mem_cons_self _ _), ih fun x hx => h x (List.mem_cons_of_mem _ hx)]

/-- If every element maps to ok, the whole run is ok. -/
theorem exceptMapList_isOk {α β ε : Type} {f : α → Except ε β} :
    ∀ {l : List α}, (∀ a ∈ l, ∃ b, f a = .ok b) →
      ∃ bs, exceptMapList f l = .ok bs := by
  intro l
  induction l with
  | nil => intro _; exact ⟨[], rfl⟩
  | cons a as ih =>
    intro h
    obtain ⟨b, hb⟩ := h a (List.mem_cons_self _ _)
    obtain ⟨bs, hbs⟩ := ih fun x hx => h x (List.mem_cons_of_mem _ hx)
    refine ⟨b :: bs, ?_⟩
    simp only [exceptMapList]
    rw [hb, hbs]

/-- If every element maps to ok none, the collected options reduce to the
empty list. -/
theorem exceptMapList_all_none {α ε : Type} {β : Type} {f : α → Except ε (Option β)} :
    ∀ {l : List α}, (∀ a ∈ l, f a = .ok none) →
      ∃ bs, exceptMapList f l = .ok bs ∧ bs.reduceOption = [] := by
  intro l
  induction l with
  | nil => intro _; exact ⟨[], rfl, rfl⟩
  | cons a as ih =>
    intro h
    obtain ⟨bs, hbs, hred⟩ := ih fun x hx => h x (List.mem_cons_of_mem _ hx)
    refine ⟨none :: bs, ?_, ?_⟩
    · simp only [exceptMapList]
      rw [h a (List.mem_cons_self _ _), hbs]
    · simp [List.reduceOption_cons_of_none, hred]

/-- Membership in the segment cross product. -/
theorem mem_segmentPairs {ti : TimingInfo} {p : ℤ × ℤ} :
    p ∈ segmentPairs ti ↔
      p.1 ∈ ti.TimeSegment1_range ∧ p.2 ∈ ti.TimeSegment2_range := by
  cases p with
  | mk a b =>
    simp only [segmentPairs, List.mem_flatMap, List.mem_map]
    constructor
    · rintro ⟨x, hx, y, hy, hxy⟩
      cases hxy
      exact ⟨hx, hy⟩
    · rintro ⟨ha, hb⟩
      exact ⟨a, ha, b, hb, rfl⟩

/-! Characterizations of the loop body. -/

/-- Python int() is the identity on integers embedded into the rationals. -/
theorem intTrunc_intCast (k : ℤ) : intTrunc (k : ℚ) = k := by
  simp [intTrunc, Rat.num_intCast, Rat.den_intCast]

/-- Inversion of an emitting run of the loop body. -/
theorem calcStep_eq_ok_some {f b : ℚ} {s : ℤ} {ti : TimingInfo} {lo hi : ℚ}
    {TS1 TS2 : ℤ} {bt : BitTiming}
    (h : calcStep f b s ti lo hi TS1 TS2 = .ok (some bt)) :
    ∃ k ∈ ti.PreScaler_range,
      (k : ℚ) = f / (b * ((SyncSegment + TS1 + TS2 : ℤ) : ℚ)) ∧
      b * ((SyncSegment + TS1 + TS2 : ℤ) : ℚ) ≠ 0 ∧ f ≠ 0 ∧
      bt = ⟨((SyncSegment + TS1 : ℤ) : ℚ) / ((SyncSegment + TS1 + TS2 : ℤ) : ℚ) * 100,
            1 / f * (k : ℚ), SyncSegment + TS1 + TS2, TS1, TS2, k,
            min s (min TS1 (min TS2 (ti.SyncJumpWidth_range.getLastD 0)))⟩ ∧
      lo ≤ bt.SamplePoint ∧ bt.SamplePoint ≤ hi := by
  simp only [calcStep] at h
  split at h
  · cases h
  · rename_i hb
    split at h
    · rename_i hex
      split at h
      · cases h
      · rename_i hf
        split at h
        · rename_i hsp
          cases hlast : ti.SyncJumpWidth_range.getLast? with
          | none => rw [hlast] at h; cases h
          | some last =>
            rw [hlast] at h
            cases h
            obtain ⟨k, hk, hkq⟩ := hex
            have hgd : ti.SyncJumpWidth_range.getLastD 0 = last := by
              rw [List.getLastD_eq_getLast?, hlast]
              rfl
            refine ⟨k, hk, hkq, hb, hf, ?_, hsp.1, hsp.2⟩
            rw [hgd, ← hkq, intTrunc_intCast]
        · cases h
    · cases h

/-- The loop body emits a solution when the real prescaler is exactly an
integer of the prescaler range, the sample point is inside the window, and
the SJW range has a last element. -/
theorem calcStep_emits {f b : ℚ} {s : ℤ} {ti : TimingInfo} {lo hi : ℚ}
    {TS1 TS2 k last : ℤ}
    (hk : k ∈ ti.PreScaler_range)
    (hlast : ti.SyncJumpWidth_range.getLast? = some last)
    (hkq : (k : ℚ) = f / (b * ((SyncSegment + TS1 + TS2 : ℤ) : ℚ)))
    (hb : b * ((SyncSegment + TS1 + TS2 : ℤ) : ℚ) ≠ 0) (hf : f ≠ 0)
    (hlo : lo ≤ ((SyncSegment + TS1 : ℤ) : ℚ) / ((SyncSegment + TS1 + TS2 : ℤ) : ℚ) * 100)
    (hhi : ((SyncSegment + TS1 : ℤ) : ℚ) / ((SyncSegment + TS1 + TS2 : ℤ) : ℚ) * 100 ≤ hi) :
    calcStep f b s ti lo hi TS1 TS2 =
      .ok (some ⟨((SyncSegment + TS1 : ℤ) : ℚ) / ((SyncSegment + TS1 + TS2 : ℤ) : ℚ) * 100,
            1 / f * (k : ℚ), SyncSegment + TS1 + TS2, TS1, TS2, k,
            min s (min TS1 (min TS2 last))⟩) := by
  simp only [calcStep]
  rw [if_neg (by simpa using hb), if_pos ⟨k, hk, hkq⟩, if_neg hf, if_pos ⟨hlo, hhi⟩,
    hlast, ← hkq, intTrunc_intCast]

/-- The loop body raises the index error when a pair passes both filters but
the SJW range is empty, as Python's [-1] subscript does. -/
theorem calcStep_sjw_empty {f b : ℚ} {s : ℤ} {ti : TimingInfo} {lo hi : ℚ}
    {TS1 TS2 k : ℤ}
    (hk : k ∈ ti.PreScaler_range)
    (hempty : ti.SyncJumpWidth_range.getLast? = none)
    (hkq : (k : ℚ) = f / (b * ((SyncSegment + TS1 + TS2 : ℤ) : ℚ)))
    (hb : b * ((SyncSegment + TS1 + TS2 : ℤ) : ℚ) ≠ 0) (hf : f ≠ 0)
    (hlo : lo ≤ ((SyncSegment + TS1 : ℤ) : ℚ) / ((SyncSegment + TS1 + TS2 : ℤ) : ℚ) * 100)
    (hhi : ((SyncSegment + TS1 : ℤ) : ℚ) / ((SyncSegment + TS1 + TS2 : ℤ) : ℚ) * 100 ≤ hi) :
    calcStep f b s ti lo hi TS1 TS2 = .error .indexError := by
  simp only [calcStep]
  rw [if_neg (by simpa using hb), if_pos ⟨k, hk, hkq⟩, if_neg hf, if_pos ⟨hlo, hhi⟩,
    hempty]

/-- The loop body only fails with the division or index error. -/
theorem calcStep_error {f b : ℚ} {s : ℤ} {ti : TimingInfo} {lo hi : ℚ}
    {TS1 TS2 : ℤ} {e : PyError}
    (h : calcStep f b s ti lo hi TS1 TS2 = .error e) :
    e = .zeroDivision ∨ e = .indexError := by
  simp only [calcStep] at h
  split at h
  · cases h; exact Or.inl rfl
  · split at h
    · split at h
      · cases h; exact Or.inl rfl
      · split at h
        · split at h
          · cases h; exact Or.inr rfl
          · cases h
        · cases h
    · cases h

/-- The loop body discards the pair when no range integer equals the real
prescaler. -/
theorem calcStep_none_of_no_prescaler {f b : ℚ} {s : ℤ} {ti : TimingInfo}
    {lo hi : ℚ} {TS1 TS2 : ℤ}
    (hb : b * ((SyncSegment + TS1 + TS2 : ℤ) : ℚ) ≠ 0)
    (hno : ¬ ∃ k ∈ ti.PreScaler_range,
      (k : ℚ) = f / (b * ((SyncSegment + TS1 + TS2 : ℤ) : ℚ))) :
    calcStep f b s ti lo hi TS1 TS2 = .ok none := by
  simp only [calcStep]
  rw [if_neg (by simpa using hb), if_neg hno]

/-- The loop body does not fail when the rate-times-quanta product is
nonzero, every prescaler-range value is at least 1, and the SJW range is
non-empty. -/
theorem calcStep_isOk {f b : ℚ} {s : ℤ} {ti : TimingInfo} {lo hi : ℚ}
    {TS1 TS2 : ℤ}
    (hb : b * ((SyncSegment + TS1 + TS2 : ℤ) : ℚ) ≠ 0)
    (hpre : ∀ k ∈ ti.PreScaler_range, 1 ≤ k)
    (hsjw : ti.SyncJumpWidth_range ≠ []) :
    ∃ o, calcStep f b s ti lo hi TS1 TS2 = .ok o := by
  by_cases hf : f = 0
  · refine ⟨none, calcStep_none_of_no_prescaler hb ?_⟩
    rintro ⟨k, hk, hkq⟩
    have h1 : (1 : ℚ) ≤ (k : ℚ) := by exact_mod_cast hpre k hk
    rw [hf] at hkq
    simp only [zero_div] at hkq
    norm_num [hkq] at h1
  · by_cases hex : ∃ k ∈ ti.PreScaler_range,
        (k : ℚ) = f / (b * ((SyncSegment + TS1 + TS2 : ℤ) : ℚ))
    · simp only [calcStep]
      rw [if_neg (by simpa using hb), if_pos hex, if_neg hf]
      split
      · obtain ⟨last, hlast⟩ :=
          Option.isSome_iff_exists.mp (List.getLast?_isSome.mpr hsjw)
        rw [hlast]
        exact ⟨_, rfl⟩
      · exact ⟨none, rfl⟩
    · exact ⟨none, calcStep_none_of_no_prescaler hb hex⟩

/-! Characterizations of the package search. -/

/-- An ok run of the search comes from an ok collection of the loop outputs,
sorted. -/
theorem calculate_bit_timings_ok {f b : ℚ} {s : ℤ} {ti : TimingInfo} {lo hi : ℚ}
    {l : List BitTiming}
    (h : calculate_bit_timings f b s ti lo hi = .ok l) :
    ∃ m, exceptMapList (fun p => calcStep f b s ti lo hi p.1 p.2) (segmentPairs ti) = .ok m ∧
      l = List.insertionSort btLE m.reduceOption := by
  unfold calculate_bit_timings at h
  cases hm : exceptMapList (fun p => calcStep f b s ti lo hi p.1 p.2) (segmentPairs ti) with
  | error e => rw [hm] at h; cases h
  | ok m =>
    rw [hm] at h
    cases h
    exact ⟨m, rfl, rfl⟩

/-- Membership in an ok search result is exactly an emitting pair of the two
segment ranges. -/
theorem mem_calculate_bit_timings {f b : ℚ} {s : ℤ} {ti : TimingInfo} {lo hi : ℚ}
    {l : List BitTiming} {bt : BitTiming}
    (h : calculate_bit_timings f b s ti lo hi = .ok l) :
    bt ∈ l ↔ ∃ TS1 ∈ ti.TimeSegment1_range, ∃ TS2 ∈ ti.TimeSegment2_range,
      calcStep f b s ti lo hi TS1 TS2 = .ok (some bt) := by
  obtain ⟨m, hm, rfl⟩ := calculate_bit_timings_ok h
  have hperm := List.perm_insertionSort btLE m.reduceOption
  rw [hperm.mem_iff, List.reduceOption_mem_iff]
  constructor
  · intro hmem
    obtain ⟨p, hp, hstep⟩ := forall2_mem_right (exceptMapList_ok_forall2 hm) _ hmem
    obtain ⟨h1, h2⟩ := mem_segmentPairs.mp hp
    exact ⟨p.1, h1, p.2, h2, hstep⟩
  · rintro ⟨TS1, h1, TS2, h2, hstep⟩
    obtain ⟨o, ho, hstep2⟩ :=
      forall2_mem_left (exceptMapList_ok_forall2 hm) (TS1, TS2)
        (mem_segmentPairs.mpr ⟨h1, h2⟩)
    rw [hstep] at hstep2
    cases hstep2
    exact ho

/-- The search only fails with the division or index error. -/
theorem calculate_bit_timings_error {f b : ℚ} {s : ℤ} {ti : TimingInfo}
    {lo hi : ℚ} {e : PyError}
    (h : calculate_bit_timings f b s ti lo hi = .error e) :
    e = .zeroDivision ∨ e = .indexError := by
  unfold calculate_bit_timings at h
  cases hm : exceptMapList (fun p => calcStep f b s ti lo hi p.1 p.2) (segmentPairs ti) with
  | error e2 =>
    rw [hm] at h
    cases h
    obtain ⟨p, _, hp⟩ := exceptMapList_error hm
    exact calcStep_error hp
  | ok m => rw [hm] at h; cases h

/-- The sort order is transitive. -/
instance : IsTrans BitTiming btLE :=
  ⟨by
    intro a b c hab hbc
    rcases hab with h1 | ⟨h1, h1p⟩
    · rcases hbc with h2 | ⟨h2, _⟩
      · exact Or.inl (h1.trans h2)
      · exact Or.inl (lt_of_lt_of_eq h1 h2)
    · rcases hbc with h2 | ⟨h2, h2p⟩
      · exact Or.inl (lt_of_eq_of_lt h1 h2)
      · exact Or.inr ⟨h1.trans h2, h2p.trans h1p⟩⟩

/-- The sort order is total. -/
instance : IsTotal BitTiming btLE :=
  ⟨by
    intro a b
    rcases lt_trichotomy a.SamplePoint b.SamplePoint with h | h | h
    · exact Or.inl (Or.inl h)
    · rcases le_total b.Prescaler a.Prescaler with hp | hp
      · exact Or.inl (Or.inr ⟨h, hp⟩)
      · exact Or.inr (Or.inr ⟨h.symm, hp⟩)
    · exact Or.inr (Or.inl h)⟩

/-! Claim theorems. -/

/-- C1, counterexample: with input clock 11, bit rate 1, and the constraint
tiFrac whose prescaler range is the closed interval 1..10, the only segment
pair (1, 1) has real-valued prescaler 11/3, which lies inside the interval
bounds, and a sample point inside the default window, yet the search output
is empty: the code rejects every fractional prescaler, not only those whose
real value falls outside the range.  This refutes the claimed
discard-iff-outside-the-closed-interval characterization. -/
theorem spec_C1_counterexample :
    calculate_bit_timings 11 1 3 tiFrac 50 100 = .ok [] ∧
    tiFrac.PreScaler_range = closed_range 1 10 ∧
    (1 : ℚ) ≤ 11 / (1 * ((SyncSegment + 1 + 1 : ℤ) : ℚ)) ∧
    11 / (1 * ((SyncSegment + 1 + 1 : ℤ) : ℚ)) ≤ 10 ∧
    (50 : ℚ) ≤ ((SyncSegment + 1 : ℤ) : ℚ) / ((SyncSegment + 1 + 1 : ℤ) : ℚ) * 100 ∧
    ((SyncSegment + 1 : ℤ) : ℚ) / ((SyncSegment + 1 + 1 : ℤ) : ℚ) * 100 ≤ 100 := by
  refine ⟨by decide, rfl, ?_, ?_, ?_, ?_⟩ <;> norm_num [SyncSegment]

/-- C1, amended: a (segment1, segment2) pair survives the prescaler check
only when the real-valued prescaler inputClock / (bitRate * quanta) is
exactly equal to an integer member of the prescaler range; consequently the
truncation applied after acceptance is the identity, and every emitted
solution's prescaler field, read back as a rational, equals the real-valued
prescaler of its pair. -/
theorem spec_C1_theorem {f b : ℚ} {s : ℤ} {ti : TimingInfo} {lo hi : ℚ}
    {l : List BitTiming} {bt : BitTiming}
    (h : calculate_bit_timings f b s ti lo hi = .ok l) (hbt : bt ∈ l) :
    bt.Prescaler ∈ ti.PreScaler_range ∧
    (bt.Prescaler : ℚ) = f / (b * (bt.TimeQuantaPerBitTime : ℚ)) ∧
    intTrunc (f / (b * (bt.TimeQuantaPerBitTime : ℚ))) = bt.Prescaler := by
  obtain ⟨TS1, h1, TS2, h2, hstep⟩ := (mem_calculate_bit_timings h).mp hbt
  obtain ⟨k, hk, hkq, hb, hf, hbteq, _, _⟩ := calcStep_eq_ok_some hstep
  subst hbteq
  exact ⟨hk, hkq, by rw [← hkq, intTrunc_intCast]⟩

/-- C1, witness for the amended theorem at the tiFrac-adjacent concrete run
of the worked-example constraint. -/
theorem spec_C1_witness :
    btWorked.Prescaler ∈ tiWorked.PreScaler_range ∧
    (btWorked.Prescaler : ℚ) =
      80000000 / (500000 * (btWorked.TimeQuantaPerBitTime : ℚ)) ∧
    intTrunc (80000000 / (500000 * (btWorked.TimeQuantaPerBitTime : ℚ))) =
      btWorked.Prescaler :=
  @spec_C1_theorem 80000000 500000 3 tiWorked 50 100 [btWorked] btWorked
    (by decide) (by decide)

/-- C2: for input clock 80 MHz and target bit rate 500 kbps, any constraint
whose segment1 range contains 15, whose segment2 range contains 4 and whose
prescaler range contains 8 produces, in any ok search output over the default
window, a solution with segment1 = 15, segment2 = 4, 20 quanta per bit time,
prescaler 8 and sample point 80. -/
theorem spec_C2_theorem {s : ℤ} {ti : TimingInfo} {l : List BitTiming}
    (h15 : (15 : ℤ) ∈ ti.TimeSegment1_range)
    (h4 : (4 : ℤ) ∈ ti.TimeSegment2_range)
    (h8 : (8 : ℤ) ∈ ti.PreScaler_range)
    (hc : calculate_bit_timings 80000000 500000 s ti 50 100 = .ok l) :
    ∃ bt ∈ l, bt.TS1 = 15 ∧ bt.TS2 = 4 ∧ bt.TimeQuantaPerBitTime = 20 ∧
      bt.Prescaler = 8 ∧ bt.SamplePoint = 80 := by
  cases hlast : ti.SyncJumpWidth_range.getLast? with
  | none =>
    exfalso
    obtain ⟨m, hm, _⟩ := calculate_bit_timings_ok hc
    obtain ⟨o, _, hstep⟩ := forall2_mem_left (exceptMapList_ok_forall2 hm)
      (15, 4) (mem_segmentPairs.mpr ⟨h15, h4⟩)
    have herr := @calcStep_sjw_empty 80000000 500000 s ti 50 100 15 4 8 h8
      hlast (by norm_num [SyncSegment]) (by norm_num [SyncSegment]) (by norm_num)
      (by norm_num [SyncSegment]) (by norm_num [SyncSegment])
    rw [herr] at hstep
    cases hstep
  | some last =>
    have hstep := @calcStep_emits 80000000 500000 s ti 50 100 15 4 8 last h8
      hlast (by norm_num [SyncSegment]) (by norm_num [SyncSegment]) (by norm_num)
      (by norm_num [SyncSegment]) (by norm_num [SyncSegment])
    refine ⟨_, (mem_calculate_bit_timings hc).mpr ⟨15, h15, 4, h4, hstep⟩,
      rfl, rfl, by norm_num [SyncSegment], rfl, by norm_num [SyncSegment]⟩

/-- C2, witness: the worked-example constraint tiWorked yields exactly the
worked-example solution. -/
theorem spec_C2_witness :
    ∃ bt ∈ [btWorked], bt.TS1 = 15 ∧ bt.TS2 = 4 ∧ bt.TimeQuantaPerBitTime = 20 ∧
      bt.Prescaler = 8 ∧ bt.SamplePoint = 80 :=
  @spec_C2_theorem 3 tiWorked [btWorked] (by decide) (by decide) (by decide)
    (by decide)

/-- C3: in every ok search output over constraint ranges whose elements are
all at least 1, every emitted solution satisfies quanta = 1 + segment1 +
segment2 with quanta at least 3, sample point = (1 + segment1) / quanta * 100
lying inside the inclusive window, time quantum = prescaler / clock, and
clock / (prescaler * quanta) equal to the requested bit rate. -/
theorem spec_C3_theorem {f b : ℚ} {s : ℤ} {ti : TimingInfo} {lo hi : ℚ}
    {l : List BitTiming} {bt : BitTiming}
    (hr1 : ∀ x ∈ ti.TimeSegment1_range, 1 ≤ x)
    (hr2 : ∀ x ∈ ti.TimeSegment2_range, 1 ≤ x)
    (_hrp : ∀ k ∈ ti.PreScaler_range, 1 ≤ k)
    (hc : calculate_bit_timings f b s ti lo hi = .ok l) (hbt : bt ∈ l) :
    bt.TimeQuantaPerBitTime = 1 + bt.TS1 + bt.TS2 ∧
    3 ≤ bt.TimeQuantaPerBitTime ∧
    bt.SamplePoint = ((1 + bt.TS1 : ℤ) : ℚ) / (bt.TimeQuantaPerBitTime : ℚ) * 100 ∧
    lo ≤ bt.SamplePoint ∧ bt.SamplePoint ≤ hi ∧
    bt.TimeQuantumSec = (bt.Prescaler : ℚ) / f ∧
    f / ((bt.Prescaler : ℚ) * (bt.TimeQuantaPerBitTime : ℚ)) = b := by
  obtain ⟨TS1, h1, TS2, h2, hstep⟩ := (mem_calculate_bit_timings hc).mp hbt
  obtain ⟨k, hk, hkq, hb, hf, hbteq, hlo, hhi⟩ := calcStep_eq_ok_some hstep
  have hTS1 : 1 ≤ TS1 := hr1 TS1 h1
  have hTS2 : 1 ≤ TS2 := hr2 TS2 h2
  have hbne : b ≠ 0 := fun hb0 => hb (by rw [hb0, zero_mul])
  have htqne : ((SyncSegment + TS1 + TS2 : ℤ) : ℚ) ≠ 0 :=
    fun h0 => hb (by rw [h0, mul_zero])
  have hkne : (k : ℚ) ≠ 0 := by
    rw [hkq]
    exact div_ne_zero hf hb
  subst hbteq
  refine ⟨by simp [SyncSegment], by simp only [SyncSegment]; omega,
    by simp [SyncSegment], hlo, hhi, by simp only []; ring, ?_⟩
  show f / ((k : ℚ) * ((SyncSegment + TS1 + TS2 : ℤ) : ℚ)) = b
  rw [hkq]
  field_simp
  push_cast at htqne
  rw [show f * (b * ((SyncSegment : ℚ) + (TS1 : ℚ) + (TS2 : ℚ))) =
      b * (f * ((SyncSegment : ℚ) + (TS1 : ℚ) + (TS2 : ℚ))) by ring,
    mul_div_assoc, div_self (mul_ne_zero hf htqne), mul_one]

/-- C3, witness at the worked example. -/
theorem spec_C3_witness :
    btWorked.TimeQuantaPerBitTime = 1 + btWorked.TS1 + btWorked.TS2 ∧
    3 ≤ btWorked.TimeQuantaPerBitTime ∧
    btWorked.SamplePoint =
      ((1 + btWorked.TS1 : ℤ) : ℚ) / (btWorked.TimeQuantaPerBitTime : ℚ) * 100 ∧
    (50 : ℚ) ≤ btWorked.SamplePoint ∧ btWorked.SamplePoint ≤ 100 ∧
    btWorked.TimeQuantumSec = (btWorked.Prescaler : ℚ) / 80000000 ∧
    (80000000 : ℚ) / ((btWorked.Prescaler : ℚ) * (btWorked.TimeQuantaPerBitTime : ℚ)) =
      500000 :=
  @spec_C3_theorem 80000000 500000 3 tiWorked 50 100 [btWorked] btWorked
    (by decide) (by decide) (by decide) (by decide) (by decide)

/-- C4: every ok search output is sorted so that along adjacent solutions the
sample point strictly increases, or stays equal while the prescaler does not
increase. -/
theorem spec_C4_theorem {f b : ℚ} {s : ℤ} {ti : TimingInfo} {lo hi : ℚ}
    {l : List BitTiming}
    (hc : calculate_bit_timings f b s ti lo hi = .ok l) :
    l.Chain' fun x y =>
      x.SamplePoint < y.SamplePoint ∨
        (x.SamplePoint = y.SamplePoint ∧ y.Prescaler ≤ x.Prescaler) := by
  obtain ⟨m, _, rfl⟩ := calculate_bit_timings_ok hc
  exact (List.sorted_insertionSort btLE m.reduceOption).chain'

/-- C4, witness on a concrete two-element output of the XCANPS-style
constraint restricted to two segment pairs. -/
theorem spec_C4_witness :
    [btWorked].Chain' fun x y =>
      x.SamplePoint < y.SamplePoint ∨
        (x.SamplePoint = y.SamplePoint ∧ y.Prescaler ≤ x.Prescaler) :=
  @spec_C4_theorem 80000000 500000 3 tiWorked 50 100 [btWorked] (by decide)

/-- C5: every emitted solution's actual SJW is the minimum of the requested
SJW, both segments, and the last element of the constraint's SJW range; in
particular it never exceeds either segment nor that upper bound. -/
theorem spec_C5_theorem {f b : ℚ} {s : ℤ} {ti : TimingInfo} {lo hi : ℚ}
    {l : List BitTiming} {bt : BitTiming}
    (hc : calculate_bit_timings f b s ti lo hi = .ok l) (hbt : bt ∈ l) :
    bt.SyncJumpWidthActual =
      min s (min bt.TS1 (min bt.TS2 (ti.SyncJumpWidth_range.getLastD 0))) ∧
    bt.SyncJumpWidthActual ≤ min bt.TS1 bt.TS2 ∧
    bt.SyncJumpWidthActual ≤ ti.SyncJumpWidth_range.getLastD 0 := by
  obtain ⟨TS1, h1, TS2, h2, hstep⟩ := (mem_calculate_bit_timings hc).mp hbt
  obtain ⟨k, _, _, _, _, hbteq, _, _⟩ := calcStep_eq_ok_some hstep
  subst hbteq
  refine ⟨rfl, ?_, ?_⟩ <;> simp only [le_min_iff, min_le_iff] <;> omega

/-- C5, witness at the worked example. -/
theorem spec_C5_witness :
    btWorked.SyncJumpWidthActual =
      min 3 (min btWorked.TS1
        (min btWorked.TS2 (tiWorked.SyncJumpWidth_range.getLastD 0))) ∧
    btWorked.SyncJumpWidthActual ≤ min btWorked.TS1 btWorked.TS2 ∧
    btWorked.SyncJumpWidthActual ≤ tiWorked.SyncJumpWidth_range.getLastD 0 :=
  @spec_C5_theorem 80000000 500000 3 tiWorked 50 100 [btWorked] btWorked
    (by decide) (by decide)


/-- Unfolding of the query layer at a missing phase. -/
theorem _get_timings_none {d : CanDevice} {b : ℚ} {phase : CanPhase} {s : ℤ}
    {u : Bool} (hlook : d.TimingInfos.lookup phase = none) :
    CanDevice._get_timings d b phase s u = .error .unsupportedPhase := by
  unfold CanDevice._get_timings
  rw [hlook]

/-- Unfolding of the query layer at a present phase. -/
theorem _get_timings_some {d : CanDevice} {b : ℚ} {phase : CanPhase} {s : ℤ}
    {u : Bool} {ti : TimingInfo}
    (hlook : d.TimingInfos.lookup phase = some ti) :
    CanDevice._get_timings d b phase s u =
      (calculate_bit_timings (d.F_in : ℚ) b s ti DefaultSamplePointLo
          DefaultSamplePointHi).map
        fun timings => if u then uniqueTimings timings else timings := by
  unfold CanDevice._get_timings
  rw [hlook]

/-- The query layer fails only with the missing-phase, division or index
error. -/
theorem _get_timings_error {d : CanDevice} {b : ℚ} {phase : CanPhase} {s : ℤ}
    {u : Bool} {e : PyError}
    (h : CanDevice._get_timings d b phase s u = .error e) :
    e = .unsupportedPhase ∨ e = .zeroDivision ∨ e = .indexError := by
  cases hlook : d.TimingInfos.lookup phase with
  | none =>
    rw [_get_timings_none hlook] at h
    cases h
    exact Or.inl rfl
  | some ti =>
    rw [_get_timings_some hlook] at h
    cases hcalc : calculate_bit_timings (d.F_in : ℚ) b s ti
        DefaultSamplePointLo DefaultSamplePointHi with
    | error e2 =>
      rw [hcalc] at h
      cases h
      exact Or.inr (calculate_bit_timings_error hcalc)
    | ok m => rw [hcalc] at h; cases h

/-- C6: get_timing fails with invalidArgument exactly when the sample-point
target lies outside the closed interval 50..100; on a valid target it returns
the first de-duplicated arbitration timing whose sample point lies strictly
inside the open window around the target; and on a list whose only sample
points are 70 and 80 a target of 75 with window 1 finds nothing. -/
theorem spec_C6_theorem (d : CanDevice) (b t w : ℚ) (s : ℤ) (ts : List BitTiming) :
    ((d.get_timing b t w s = .error .invalidArgument) ↔ ¬ (50 ≤ t ∧ t ≤ 100)) ∧
    ((50 ≤ t ∧ t ≤ 100) → d.get_timings b s true = .ok ts →
      d.get_timing b t w s = .ok (CanDevice._get_timing ts t w)) ∧
    CanDevice._get_timing [bt70, bt80] 75 1 = none := by
  refine ⟨⟨?_, ?_⟩, ?_, by decide⟩
  · intro habs hv
    simp only [CanDevice.get_timing, DefaultSamplePointLo, DefaultSamplePointHi] at habs
    rw [if_pos hv] at habs
    cases hg : CanDevice.get_timings d b s true with
    | error e =>
      rw [hg] at habs
      cases habs
      rcases _get_timings_error hg with h | h | h <;> cases h
    | ok ts2 => rw [hg] at habs; cases habs
  · intro hv
    simp only [CanDevice.get_timing, DefaultSamplePointLo, DefaultSamplePointHi]
    rw [if_neg hv]
  · intro hv hts
    simp only [CanDevice.get_timing, DefaultSamplePointLo, DefaultSamplePointHi]
    rw [if_pos hv]
    rw [hts]
    rfl

/-- C6, witness: on the worked-example device, target 80 with window 1 finds
the worked-example solution. -/
theorem spec_C6_witness :
    CanDevice.get_timing devWorked 500000 80 1 3 = .ok (some btWorked) := by
  have h := (spec_C6_theorem devWorked 500000 80 1 3 [btWorked]).2.1
    (by norm_num) (by decide)
  rw [h]
  decide

/-- C7: the query layer fails with unsupportedPhase exactly when the phase is
absent from the device's constraint mapping; a present phase with an empty
segment1 range yields the empty list; and a present phase raises nothing
when the bit rate is nonzero and the constraint ranges obey the data-model
invariant that every element is at least 1 and the SJW range is non-empty
(the spec's unconditional never-raises reading fails at bit rate zero, see
the counterexample; an empty SJW range would likewise raise an index
error on any emitting pair). -/
theorem spec_C7_theorem (d : CanDevice) (b : ℚ) (phase : CanPhase) (s : ℤ)
    (u : Bool) :
    ((CanDevice._get_timings d b phase s u = .error .unsupportedPhase) ↔
      d.TimingInfos.lookup phase = none) ∧
    (∀ ti, d.TimingInfos.lookup phase = some ti → ti.TimeSegment1_range = [] →
      CanDevice._get_timings d b phase s u = .ok []) ∧
    (∀ ti, d.TimingInfos.lookup phase = some ti → b ≠ 0 →
      (∀ x ∈ ti.TimeSegment1_range, 1 ≤ x) →
      (∀ x ∈ ti.TimeSegment2_range, 1 ≤ x) →
      (∀ k ∈ ti.PreScaler_range, 1 ≤ k) →
      ti.SyncJumpWidth_range ≠ [] →
      ∃ l, CanDevice._get_timings d b phase s u = .ok l) := by
  refine ⟨⟨?_, ?_⟩, ?_, ?_⟩
  · intro h
    cases hlook : d.TimingInfos.lookup phase with
    | none => rfl
    | some ti =>
      rw [_get_timings_some hlook] at h
      cases hcalc : calculate_bit_timings (d.F_in : ℚ) b s ti
          DefaultSamplePointLo DefaultSamplePointHi with
      | error e2 =>
        rw [hcalc] at h
        cases h
        rcases calculate_bit_timings_error hcalc with h2 | h2 <;> cases h2
      | ok m => rw [hcalc] at h; cases h
  · intro hlook
    exact _get_timings_none hlook
  · intro ti hlook hempty
    have hpairs : segmentPairs ti = [] := by
      simp [segmentPairs, hempty]
    have hcalc : calculate_bit_timings (d.F_in : ℚ) b s ti
        DefaultSamplePointLo DefaultSamplePointHi = .ok [] := by
      unfold calculate_bit_timings
      rw [hpairs]
      rfl
    rw [_get_timings_some hlook, hcalc]
    cases u <;> rfl
  · intro ti hlook hb hr1 hr2 hrp hsjw
    obtain ⟨bs, hbs⟩ := @exceptMapList_isOk (ℤ × ℤ) (Option BitTiming) PyError
      (fun p => calcStep (d.F_in : ℚ) b s ti DefaultSamplePointLo
        DefaultSamplePointHi p.1 p.2)
      (segmentPairs ti)
      (fun p hp => by
        obtain ⟨h1, h2⟩ := mem_segmentPairs.mp hp
        have ht1 := hr1 p.1 h1
        have ht2 := hr2 p.2 h2
        refine calcStep_isOk (mul_ne_zero hb ?_) hrp hsjw
        rw [Int.cast_ne_zero]
        simp only [SyncSegment]
        omega)
    have hcalc : calculate_bit_timings (d.F_in : ℚ) b s ti
        DefaultSamplePointLo DefaultSamplePointHi =
        .ok (List.insertionSort btLE bs.reduceOption) := by
      unfold calculate_bit_timings
      rw [hbs]
      rfl
    rw [_get_timings_some hlook, hcalc]
    exact ⟨_, rfl⟩

/-- C7, counterexample to the never-raises part: the worked-example device
has an arbitration entry, yet a zero bit rate raises a division error and
not unsupportedPhase, so a present phase can raise. -/
theorem spec_C7_counterexample :
    devWorked.TimingInfos.lookup CanPhase.Arbitration = some tiWorked ∧
    CanDevice._get_timings devWorked 0 CanPhase.Arbitration 3 true =
      .error .zeroDivision := by
  exact ⟨by decide, by decide⟩

/-- C7, witness: the missing data phase of the worked-example device fails
with unsupportedPhase, and its present arbitration phase returns a list. -/
theorem spec_C7_witness :
    CanDevice._get_timings devWorked 500000 CanPhase.Data 3 true =
      .error .unsupportedPhase ∧
    ∃ l, CanDevice._get_timings devWorked 500000 CanPhase.Arbitration 3 true =
      .ok l := by
  constructor
  · exact (spec_C7_theorem devWorked 500000 CanPhase.Data 3 true).1.mpr (by decide)
  · exact (spec_C7_theorem devWorked 500000 CanPhase.Arbitration 3 true).2.2
      tiWorked (by decide) (by norm_num) (by decide) (by decide) (by decide)
      (by decide)

/-- Members of the de-duplicated list come from the input and have keys not
yet seen. -/
theorem mem_uniqueAux {x : BitTiming} :
    ∀ {seen : List (ℚ × ℤ)} {l : List BitTiming}, x ∈ uniqueAux seen l →
      x ∈ l ∧ x.keys ∉ seen := by
  intro seen l
  induction l generalizing seen with
  | nil => intro h; cases h
  | cons t ts ih =>
    intro h
    simp only [uniqueAux] at h
    split at h
    · obtain ⟨hx, hks⟩ := ih h
      exact ⟨List.mem_cons_of_mem _ hx, hks⟩
    · rename_i hmem
      rcases List.mem_cons.mp h with rfl | h2
      · exact ⟨List.mem_cons_self _ _, hmem⟩
      · obtain ⟨hx, hks⟩ := ih h2
        exact ⟨List.mem_cons_of_mem _ hx, fun hk => hks (List.mem_cons_of_mem _ hk)⟩

/-- The de-duplicated list has pairwise distinct keys. -/
theorem uniqueAux_pairwise :
    ∀ (seen : List (ℚ × ℤ)) (l : List BitTiming),
      (uniqueAux seen l).Pairwise fun a b => a.keys ≠ b.keys := by
  intro seen l
  induction l generalizing seen with
  | nil => exact List.Pairwise.nil
  | cons t ts ih =>
    simp only [uniqueAux]
    split
    · exact ih _
    · refine List.Pairwise.cons ?_ (ih _)
      intro y hy hkeq
      exact (mem_uniqueAux hy).2 (by rw [← hkeq]; exact List.mem_cons_self _ _)

/-- Every input timing has a key-equal representative in the output, unless
its keys were already seen. -/
theorem uniqueAux_repr :
    ∀ (seen : List (ℚ × ℤ)) (l : List BitTiming), ∀ t ∈ l,
      t.keys ∈ seen ∨ ∃ u ∈ uniqueAux seen l, u.keys = t.keys := by
  intro seen l
  induction l generalizing seen with
  | nil => intro t ht; cases ht
  | cons h ts ih =>
    intro t ht
    simp only [uniqueAux]
    rcases List.mem_cons.mp ht with rfl | hts
    · split
      · rename_i hmem
        exact Or.inl hmem
      · exact Or.inr ⟨_, List.mem_cons_self _ _, rfl⟩
    · split
      · exact ih seen t hts
      · rcases ih (h.keys :: seen) t hts with hs | ⟨u, hu, hk⟩
        · rcases List.mem_cons.mp hs with he | hs2
          · exact Or.inr ⟨h, List.mem_cons_self _ _, he.symm⟩
          · exact Or.inl hs2
        · exact Or.inr ⟨u, List.mem_cons_of_mem _ hu, hk⟩

/-- A list with pairwise distinct keys, none already seen, de-duplicates to
itself. -/
theorem uniqueAux_eq_self :
    ∀ (seen : List (ℚ × ℤ)) (l : List BitTiming),
      l.Pairwise (fun a b => a.keys ≠ b.keys) → (∀ x ∈ l, x.keys ∉ seen) →
      uniqueAux seen l = l := by
  intro seen l
  induction l generalizing seen with
  | nil => intro _ _; rfl
  | cons t ts ih =>
    intro hpw hseen
    obtain ⟨hhead, htail⟩ := List.pairwise_cons.mp hpw
    simp only [uniqueAux]
    rw [if_neg (hseen t (List.mem_cons_self _ _))]
    congr 1
    refine ih _ htail ?_
    intro x hx hk
    rcases List.mem_cons.mp hk with he | hs
    · exact hhead x hx he.symm
    · exact hseen x (List.mem_cons_of_mem _ hx) hs

/-- C8: with unique true the query layer returns the search output collapsed
by the key equality on (samplePointPercent, syncJumpActual) only; the
collapsed list has pairwise distinct keys; every input solution keeps a
key-equal representative; two solutions agreeing on the two key fields
collapse to the first even when their other fields differ; and the collapse
is idempotent. -/
theorem spec_C8_theorem (d : CanDevice) (b : ℚ) (phase : CanPhase) (s : ℤ)
    (ti : TimingInfo) (l raw : List BitTiming) :
    (d.TimingInfos.lookup phase = some ti →
      calculate_bit_timings (d.F_in : ℚ) b s ti DefaultSamplePointLo
        DefaultSamplePointHi = .ok raw →
      CanDevice._get_timings d b phase s true = .ok (uniqueTimings raw)) ∧
    uniqueTimings (uniqueTimings l) = uniqueTimings l ∧
    ((uniqueTimings l).Pairwise fun a c => a.keys ≠ c.keys) ∧
    (∀ t ∈ l, ∃ u ∈ uniqueTimings l, u.keys = t.keys) ∧
    (∀ a c : BitTiming, a.keys = c.keys → uniqueTimings [a, c] = [a]) := by
  refine ⟨?_, ?_, uniqueAux_pairwise [] l, ?_, ?_⟩
  · intro hlook hcalc
    rw [_get_timings_some hlook, hcalc]
    rfl
  · exact uniqueAux_eq_self [] _ (uniqueAux_pairwise [] l) (by simp)
  · intro t ht
    rcases uniqueAux_repr [] l t ht with hs | h
    · cases hs
    · exact h
  · intro a c hk
    show uniqueAux [] [a, c] = [a]
    simp only [uniqueAux]
    rw [if_neg (List.not_mem_nil _), if_pos (by simp [hk])]

/-- C8, witness: on the worked-example device and on a two-element list whose
elements share the keys (80, 3) but differ in the other fields. -/
theorem spec_C8_witness :
    CanDevice._get_timings devWorked 500000 CanPhase.Arbitration 3 true =
      .ok (uniqueTimings [btWorked]) ∧
    (∃ u ∈ uniqueTimings [btWorked, btKeyTwin], u.keys = btKeyTwin.keys) ∧
    uniqueTimings [btWorked, btKeyTwin] = [btWorked] := by
  have h := spec_C8_theorem devWorked 500000 CanPhase.Arbitration 3 tiWorked
    [btWorked, btKeyTwin] [btWorked]
  exact ⟨h.1 (by decide) (by decide), h.2.2.2.1 btKeyTwin (by decide),
    h.2.2.2.2 btWorked btKeyTwin (by decide)⟩

/-- C9 (amended): the core performs no clock or bit-rate validation.  Under
constraint ranges obeying the data-model invariant, a zero or negative input
clock with a positive bit rate makes the search return the empty list
normally, and a zero bit rate with nonempty segment ranges makes it fail
with the division error, never with invalidArgument. -/
theorem spec_C9_theorem (f b : ℚ) (s : ℤ) (ti : TimingInfo) (lo hi : ℚ)
    (hr1 : ∀ x ∈ ti.TimeSegment1_range, 1 ≤ x)
    (hr2 : ∀ x ∈ ti.TimeSegment2_range, 1 ≤ x)
    (hrp : ∀ k ∈ ti.PreScaler_range, 1 ≤ k) :
    (f ≤ 0 → 0 < b → calculate_bit_timings f b s ti lo hi = .ok []) ∧
    (b = 0 → ti.TimeSegment1_range ≠ [] → ti.TimeSegment2_range ≠ [] →
      calculate_bit_timings f b s ti lo hi = .error .zeroDivision) := by
  constructor
  · intro hf hbpos
    obtain ⟨bs, hbs, hred⟩ := @exceptMapList_all_none (ℤ × ℤ) PyError BitTiming
      (fun p => calcStep f b s ti lo hi p.1 p.2) (segmentPairs ti)
      (fun p hp => by
        obtain ⟨h1, h2⟩ := mem_segmentPairs.mp hp
        have ht1 := hr1 p.1 h1
        have ht2 := hr2 p.2 h2
        have htq : (0 : ℚ) < ((SyncSegment + p.1 + p.2 : ℤ) : ℚ) := by
          rw [Int.cast_pos]
          simp only [SyncSegment]
          omega
        refine calcStep_none_of_no_prescaler (ne_of_gt (mul_pos hbpos htq)) ?_
        rintro ⟨k, hk, hkq⟩
        have h1k : (1 : ℚ) ≤ (k : ℚ) := by exact_mod_cast hrp k hk
        have hfk : f = (k : ℚ) * (b * ((SyncSegment + p.1 + p.2 : ℤ) : ℚ)) :=
          (div_eq_iff (ne_of_gt (mul_pos hbpos htq))).mp hkq.symm
        nlinarith [mul_pos hbpos htq])
    unfold calculate_bit_timings
    rw [hbs]
    show Except.ok (List.insertionSort btLE bs.reduceOption) = Except.ok []
    rw [hred]
    rfl
  · intro hb0 h1ne h2ne
    obtain ⟨a1, as, ha⟩ := List.exists_cons_of_ne_nil h1ne
    obtain ⟨c1, cs, hc⟩ := List.exists_cons_of_ne_nil h2ne
    have hstep : calcStep f b s ti lo hi a1 c1 = .error .zeroDivision := by
      simp only [calcStep]
      rw [if_pos (by rw [hb0, zero_mul])]
    have hpairs : ∃ rest, segmentPairs ti = (a1, c1) :: rest :=
      ⟨(cs.map fun c => (a1, c)) ++
          as.flatMap fun a => (c1 :: cs).map fun c => (a, c),
        by simp [segmentPairs, ha, hc]⟩
    obtain ⟨rest, hrest⟩ := hpairs
    unfold calculate_bit_timings
    rw [hrest]
    simp only [exceptMapList]
    rw [hstep]
    rfl

/-- C9, counterexample: with a zero clock the search returns the empty list
instead of failing with invalidArgument, and with a zero bit rate it fails
with the division error instead of invalidArgument. -/
theorem spec_C9_counterexample :
    calculate_bit_timings 0 250000 3 tiLow 50 100 = .ok [] ∧
    calculate_bit_timings 24000000 0 3 tiLow 50 100 = .error .zeroDivision := by
  exact ⟨by decide, by decide⟩

/-- C9, witness for the amended theorem at a negative clock. -/
theorem spec_C9_witness :
    calculate_bit_timings (-80000000) 500000 3 tiLow 50 100 = .ok [] :=
  (spec_C9_theorem (-80000000) 500000 3 tiLow 50 100 (by decide) (by decide)
    (by decide)).1 (by norm_num) (by norm_num)

/-- For segments of at least one quantum, the legacy loop body coincides with
the package loop body run on the sample-point window 70..100: the sample
point never exceeds 100, so the missing upper check cannot fire. -/
theorem calcStepLegacy_eq {f b : ℚ} {s : ℤ} {ti : TimingInfo} {TS1 TS2 : ℤ}
    (h1 : 1 ≤ TS1) (h2 : 1 ≤ TS2) :
    calcStepLegacy f b s ti TS1 TS2 = calcStep f b s ti 70 100 TS1 TS2 := by
  have htq : (0 : ℚ) < ((SyncSegment + TS1 + TS2 : ℤ) : ℚ) := by
    rw [Int.cast_pos]
    simp only [SyncSegment]
    omega
  have hle : ((SyncSegment + TS1 : ℤ) : ℚ) ≤ ((SyncSegment + TS1 + TS2 : ℤ) : ℚ) := by
    rw [Int.cast_le]
    simp only [SyncSegment]
    omega
  have hsp100 : ((SyncSegment + TS1 : ℤ) : ℚ) / ((SyncSegment + TS1 + TS2 : ℤ) : ℚ) * 100 ≤ 100 := by
    have hd : ((SyncSegment + TS1 : ℤ) : ℚ) / ((SyncSegment + TS1 + TS2 : ℤ) : ℚ) ≤ 1 :=
      (div_le_one htq).mpr hle
    linarith
  simp only [calcStepLegacy, calcStep, MinimalSamplePoint]
  by_cases hb0 : b * ((SyncSegment + TS1 + TS2 : ℤ) : ℚ) = 0
  · rw [if_pos hb0, if_pos hb0]
  · rw [if_neg hb0, if_neg hb0]
    by_cases hex : ∃ k ∈ ti.PreScaler_range,
        (k : ℚ) = f / (b * ((SyncSegment + TS1 + TS2 : ℤ) : ℚ))
    · rw [if_pos hex, if_pos hex]
      by_cases hf : f = 0
      · rw [if_pos hf, if_pos hf]
      · rw [if_neg hf, if_neg hf]
        by_cases hsp : ((SyncSegment + TS1 : ℤ) : ℚ) / ((SyncSegment + TS1 + TS2 : ℤ) : ℚ) * 100 < 70
        · rw [if_pos hsp, if_neg (fun hc => absurd hc.1 (by linarith))]
        · rw [if_neg hsp, if_pos ⟨by linarith, hsp100⟩]
    · rw [if_neg hex, if_neg hex]

/-- C10 (amended): under the data-model invariant on segment ranges, the
legacy top-level calculateBitTimings agrees with the package
calculate_bit_timings invoked with the sample-point window 70..100 — not the
package default 50..100 — up to the final sort that only the package
performs. -/
theorem spec_C10_theorem (f b : ℚ) (s : ℤ) (ti : TimingInfo)
    (hr1 : ∀ x ∈ ti.TimeSegment1_range, 1 ≤ x)
    (hr2 : ∀ x ∈ ti.TimeSegment2_range, 1 ≤ x) :
    calculate_bit_timings f b s ti 70 100 =
      (calculateBitTimings f b s ti).map (List.insertionSort btLE) := by
  unfold calculate_bit_timings calculateBitTimings
  have heq : exceptMapList (fun p => calcStepLegacy f b s ti p.1 p.2) (segmentPairs ti)
      = exceptMapList (fun p => calcStep f b s ti 70 100 p.1 p.2) (segmentPairs ti) := by
    refine exceptMapList_congr ?_
    intro p hp
    obtain ⟨h1, h2⟩ := mem_segmentPairs.mp hp
    exact calcStepLegacy_eq (hr1 p.1 h1) (hr2 p.2 h2)
  rw [heq]
  cases exceptMapList (fun p => calcStep f b s ti 70 100 p.1 p.2) (segmentPairs ti) with
  | error e => rfl
  | ok m => rfl

/-- C10, counterexample: at clock 3, bit rate 1 and the tiLow constraint the
package default-window search finds the sample-point-200/3 solution while
the legacy search, whose minimal sample point is 70, returns the empty list,
so the two implementations disagree under the package default window. -/
theorem spec_C10_counterexample :
    calculate_bit_timings 3 1 3 tiLow 50 100 ≠ calculateBitTimings 3 1 3 tiLow := by
  decide

/-- C10, witness for the amended theorem at the tiLow constraint. -/
theorem spec_C10_witness :
    calculate_bit_timings 3 1 3 tiLow 70 100 =
      (calculateBitTimings 3 1 3 tiLow).map (List.insertionSort btLE) :=
  spec_C10_theorem 3 1 3 tiLow (by decide) (by decide)
